import Mathlib

/-!
Verification of the GradeBook Analyzer CLI (`src/gradebook.py`).

Python scores are floats; we embed them as `ℚ` (every float literal and
every arithmetic operation appearing in the program is exact on rationals).
A Python `dict` is embedded as an insertion-ordered association list
`List (String × α)`: assignment `d[k] = v` updates the value in place when
the key is present and appends otherwise (`dinsert`), and iteration is
list order.

Console input cells and CSV cells are embedded as `Tok`: a cell either
coerces to a number via `float(...)` / `int(...)` or raises `ValueError`.
-/

namespace Gradebook

/-- An input cell: `num q` is text that `float(...)` coerces to `q`;
`invalid` is text on which the coercion raises `ValueError`. -/
inductive Tok where
  | num (q : ℚ)
  | invalid
deriving DecidableEq

/-- Result of Python `float(tok)`: `none` models a raised `ValueError`. -/
def floatOf : Tok → Option ℚ
  | .num q => some q
  | .invalid => none

/-- Result of Python `int(tok)`: succeeds only on integer text. -/
def intOf : Tok → Option Int
  | .num q => if q.den = 1 then some q.num else none
  | .invalid => none

/-- Python dict assignment `d[k] = v`: update in place when `k` is
already a key, append `(k, v)` otherwise. -/
def dinsert {α : Type} (d : List (String × α)) (k : String) (v : α) :
    List (String × α) :=
  if d.any (fun p => p.1 = k) then
    d.map (fun p => if p.1 = k then (k, v) else p)
  else d ++ [(k, v)]

/-- Python dict read `d[k]`, as an `Option` (`none` models `KeyError`). -/
def dlookup {α : Type} (d : List (String × α)) (k : String) : Option α :=
  (d.find? (fun p => p.1 = k)).map Prod.snd

/-- The keys of a dict, in insertion order (Python `d.keys()`). -/
def keys {α : Type} (d : List (String × α)) : List String :=
  d.map Prod.fst

/-- The shared shape of the two data-entry loops in `get_manual_data` and
`get_csv_data`: record entries one by one with `marks[name] = float(tok)`;
the first failing coercion raises, the handler catches it outside the loop,
and the `marks` accumulated so far is what the function returns. -/
def entryLoop : List (String × Tok) → List (String × ℚ) → List (String × ℚ)
  | [], marks => marks
  | (name, tok) :: rest, marks =>
    match floatOf tok with
    | some score => entryLoop rest (dinsert marks name score)
    | none => marks

/-- `get_manual_data`: `count = int(input(...))` then `count` iterations of
name/score prompts. A `ValueError` on the count leaves `marks = {}`.
`entries` is the stream of (name, score-cell) responses; `range(count)`
consumes the first `count.toNat` of them (`range` of a negative is empty). -/
def get_manual_data (countTok : Tok) (entries : List (String × Tok)) :
    List (String × ℚ) :=
  match intOf countTok with
  | some n => entryLoop (entries.take n.toNat) []
  | none => []

/-- Outcome of `pd.read_csv(filename)` plus column access: either the list
of (Name, Marks-cell) rows, or `FileNotFoundError`, or any other read or
parse failure (the generic `except Exception` arm). -/
inductive CsvReadResult where
  | ok (rows : List (String × Tok))
  | fileNotFound
  | readFailure

/-- `get_csv_data`: on a successful read, run the row loop
(`marks[row.Name] = float(row.Marks)`); on `FileNotFoundError` or any other
failure before the loop starts, return the empty dict. -/
def get_csv_data : CsvReadResult → List (String × ℚ)
  | .ok rows => entryLoop rows []
  | .fileNotFound => []
  | .readFailure => []

/-- `calculate_average`: `sum(values) / len(dict) if dict else 0`. -/
def calculate_average (marks : List (String × ℚ)) : ℚ :=
  if marks.isEmpty then 0
  else (marks.map Prod.snd).sum / (marks.length : ℚ)

/-- Python `statistics.median`: sort, middle element for odd length,
mean of the two middle elements for even length. -/
def pymedian (l : List ℚ) : ℚ :=
  let s := l.mergeSort (fun a b => a ≤ b)
  let n := l.length
  if n % 2 = 1 then s.getD (n / 2) 0
  else (s.getD (n / 2 - 1) 0 + s.getD (n / 2) 0) / 2

/-- `calculate_median`: `statistics.median(values) if dict else 0`. -/
def calculate_median (marks : List (String × ℚ)) : ℚ :=
  if marks.isEmpty then 0 else pymedian (marks.map Prod.snd)

/-- `find_max_score`: `max(values) if dict else 0`. -/
def find_max_score (marks : List (String × ℚ)) : ℚ :=
  match marks.map Prod.snd with
  | [] => 0
  | v :: vs => vs.foldl max v

/-- `find_min_score`: `min(values) if dict else 0`. -/
def find_min_score (marks : List (String × ℚ)) : ℚ :=
  match marks.map Prod.snd with
  | [] => 0
  | v :: vs => vs.foldl min v

/-- The grade ladder inside `assign_grades`' loop body. -/
def gradeOf (score : ℚ) : String :=
  if score ≥ 90 then "A"
  else if score ≥ 80 then "B"
  else if score ≥ 70 then "C"
  else if score ≥ 60 then "D"
  else "F"

/-- `assign_grades`: `grades = {}` then `grades[name] = grade` for each
`(name, score)` in the marks dict. -/
def assign_grades (marks : List (String × ℚ)) : List (String × String) :=
  marks.foldl (fun grades p => dinsert grades p.1 (gradeOf p.2)) []

/-- Python `distribution[grade] += 1`: bump the entry for `grade`;
`none` models the `KeyError` raised when `grade` is not a key. -/
def bumpCount : List (String × Nat) → String → Option (List (String × Nat))
  | [], _ => none
  | (k, c) :: rest, g =>
    if k = g then some ((k, c + 1) :: rest)
    else (bumpCount rest g).map (fun t => (k, c) :: t)

/-- The tally loop of `show_grade_distribution`. -/
def distLoop : List String → List (String × Nat) → Option (List (String × Nat))
  | [], d => some d
  | g :: gs, d =>
    match bumpCount d g with
    | some d2 => distLoop gs d2
    | none => none

/-- `show_grade_distribution`: start from all five grades at 0, bump one
count per student; the result is what the function prints. -/
def show_grade_distribution (grades : List (String × String)) :
    Option (List (String × Nat)) :=
  distLoop (grades.map Prod.snd) [("A", 0), ("B", 0), ("C", 0), ("D", 0), ("F", 0)]

/-- The `passed` comprehension of `show_pass_fail_summary`:
names with `score >= 40`, in dict iteration order. -/
def passedList (marks : List (String × ℚ)) : List String :=
  (marks.filter (fun p => 40 ≤ p.2)).map Prod.fst

/-- The `failed` comprehension of `show_pass_fail_summary`:
names with `score < 40`, in dict iteration order. -/
def failedList (marks : List (String × ℚ)) : List String :=
  (marks.filter (fun p => p.2 < 40)).map Prod.fst

/-- The exported file: a header row followed by the data rows, each row
(name, marks-value, grade). The `Marks` cell is written with `str(score)`
and Python's float-to-string round-trips exactly, so we keep it as `ℚ`. -/
structure CsvFile where
  header : List String
  rows : List (String × ℚ × String)
deriving DecidableEq

/-- The row loop of `export_to_csv`: one row `[name, marks[name],
grades[name]]` per key of `marks`; a missing grade key raises `KeyError`
(modelled as `none`). -/
def exportRows : List (String × ℚ) → List (String × String) →
    Option (List (String × ℚ × String))
  | [], _ => some []
  | (name, score) :: rest, grades =>
    match dlookup grades name with
    | some g => (exportRows rest grades).map (fun rs => (name, score, g) :: rs)
    | none => none

/-- `export_to_csv`: write the header `Name,Marks,Grade` then one row per
student in insertion order. -/
def export_to_csv (marks : List (String × ℚ)) (grades : List (String × String)) :
    Option CsvFile :=
  (exportRows marks grades).map (fun rs => ⟨["Name", "Marks", "Grade"], rs⟩)

/-- Feeding an exported file back through `get_csv_data`: each data row
presents its Name and its Marks cell, and the Marks cell re-parses to the
very number that was written. -/
def reimport (f : CsvFile) : List (String × ℚ) :=
  get_csv_data (.ok (f.rows.map (fun r => (r.1, Tok.num r.2.1))))

/-- States of the `start_gradebook` loop. `analyze` carries the score dict
of the iteration; `exportPrompt` carries the dict and its grades. -/
inductive State where
  | menuPrompt
  | manualEntry
  | fileImport
  | analyze (marks : List (String × ℚ))
  | exportPrompt (marks : List (String × ℚ)) (grades : List (String × String))
  | repeatPrompt
  | terminated
deriving DecidableEq

/-- One unit of external interaction consumed by the loop: a console line,
or the outcome of a data-entry call. -/
inductive Input where
  | line (s : String)
  | manualData (countTok : Tok) (entries : List (String × Tok))
  | csvData (r : CsvReadResult)

/-- One step of `start_gradebook`.
Menu: "1" → manual entry, "2" → CSV import, "3" → exit, else warn and
redisplay. After data entry, `if not marks:` warns and loops back to the
menu; otherwise analysis runs (statistics, grading, filtering, display)
and the loop reaches the export prompt. The export prompt always falls
through to the repeat prompt (exporting is a side effect); the repeat
prompt compares the lower-cased answer with "y". -/
def step : State → Input → State
  | .menuPrompt, .line c =>
    if c = "1" then .manualEntry
    else if c = "2" then .fileImport
    else if c = "3" then .terminated
    else .menuPrompt
  | .manualEntry, .manualData countTok entries =>
    let marks := get_manual_data countTok entries
    if marks.isEmpty then .menuPrompt else .analyze marks
  | .fileImport, .csvData r =>
    let marks := get_csv_data r
    if marks.isEmpty then .menuPrompt else .analyze marks
  | .analyze marks, _ => .exportPrompt marks (assign_grades marks)
  | .exportPrompt _ _, _ => .repeatPrompt
  | .repeatPrompt, .line s => if s.toLower = "y" then .menuPrompt else .terminated
  | s, _ => s

/-- The sequence of states visited from `s` while consuming `inputs`. -/
def trace (s : State) : List Input → List State
  | [] => [s]
  | i :: rest => s :: trace (step s i) rest

/-- The run of entries before the first failing coercion in a batch. -/
def goodRun (l : List (String × Tok)) : List (String × Tok) :=
  l.takeWhile (fun p => (floatOf p.2).isSome)

/-- The dict built by recording a list of entries in order. -/
def recordDict (l : List (String × Tok)) : List (String × ℚ) :=
  l.foldl (fun d p => dinsert d p.1 ((floatOf p.2).getD 0)) []

theorem entryLoop_eq_goodRun (l : List (String × Tok)) :
    ∀ acc, entryLoop l acc =
      (goodRun l).foldl (fun d p => dinsert d p.1 ((floatOf p.2).getD 0)) acc := by
  induction l with
  | nil => intro acc; rfl
  | cons p rest ih =>
    intro acc
    obtain ⟨name, tok⟩ := p
    cases tok with
    | num q => simpa [entryLoop, goodRun, List.takeWhile_cons, floatOf] using ih _
    | invalid => simp [entryLoop, goodRun, List.takeWhile_cons, floatOf]

/-- C5: on an empty score mapping, each of average, median, maximum and
minimum returns 0 rather than raising an error. -/
theorem empty_stats_return_zero :
    calculate_average [] = 0 ∧ calculate_median [] = 0 ∧
    find_max_score [] = 0 ∧ find_min_score [] = 0 :=
  ⟨rfl, rfl, rfl, rfl⟩

/-- C1 counterexample: a manual batch whose second score fails to coerce
returns the first, already-recorded entry — not an empty mapping. -/
theorem manual_batch_failure_keeps_entries :
    get_manual_data (Tok.num 2) [("Alice", Tok.num 95), ("Bob", Tok.invalid)]
      = [("Alice", (95 : ℚ))] ∧
    get_manual_data (Tok.num 2) [("Alice", Tok.num 95), ("Bob", Tok.invalid)]
      ≠ ([] : List (String × ℚ)) := by
  constructor
  · decide
  · decide

/-- C1 amended: a failing coercion aborts the rest of the batch, but the
entries recorded before the failure are kept. The mapping is empty exactly
when nothing was recorded before the failure: an invalid student count, a
file-not-found, or a read failure before the row loop yields the empty
dict, while a mid-batch coercion failure returns the dict built from the
run of entries preceding it. -/
theorem entry_failure_keeps_recorded_entries :
    (∀ entries, get_manual_data Tok.invalid entries = []) ∧
    get_csv_data .fileNotFound = [] ∧
    get_csv_data .readFailure = [] ∧
    (∀ (c : Tok) (n : Int) (entries), intOf c = some n →
      get_manual_data c entries = recordDict (goodRun (entries.take n.toNat))) ∧
    (∀ rows, get_csv_data (.ok rows) = recordDict (goodRun rows)) := by
  refine ⟨fun entries => rfl, rfl, rfl, ?_, ?_⟩
  · intro c n entries h
    simp [get_manual_data, h, recordDict, entryLoop_eq_goodRun]
  · intro rows
    simp [get_csv_data, recordDict, entryLoop_eq_goodRun]

theorem entry_failure_keeps_recorded_entries_witness :
    intOf (Tok.num 2) = some 2 ∧
    get_manual_data (Tok.num 2) [("Ann", Tok.num 50), ("Cy", Tok.invalid)]
      = recordDict (goodRun
          ([("Ann", Tok.num 50), ("Cy", Tok.invalid)].take (2 : Int).toNat)) :=
  ⟨by decide,
    entry_failure_keeps_recorded_entries.2.2.2.1 (Tok.num 2) 2 _ (by decide)⟩

theorem gradeOf_eq_A (s : ℚ) : gradeOf s = "A" ↔ 90 ≤ s := by
  unfold gradeOf
  split_ifs <;> simp_all <;> try (intros; linarith)

theorem gradeOf_eq_B (s : ℚ) : gradeOf s = "B" ↔ 80 ≤ s ∧ s < 90 := by
  unfold gradeOf
  split_ifs <;> simp_all <;> try (intros; linarith)

theorem gradeOf_eq_C (s : ℚ) : gradeOf s = "C" ↔ 70 ≤ s ∧ s < 80 := by
  unfold gradeOf
  split_ifs <;> simp_all <;> try (intros; linarith)

theorem gradeOf_eq_D (s : ℚ) : gradeOf s = "D" ↔ 60 ≤ s ∧ s < 70 := by
  unfold gradeOf
  split_ifs <;> simp_all <;> try (intros; linarith)

theorem gradeOf_eq_F (s : ℚ) : gradeOf s = "F" ↔ s < 60 := by
  unfold gradeOf
  split_ifs <;> simp_all <;> try (intros; linarith)

/-- C2: grades are assigned by inclusive lower-bound thresholds —
`≥ 90 → A`, `80–90 → B`, `70–80 → C`, `60–70 → D`, below 60 → F; in
particular 90, 80, 70, 60 get A, B, C, D and 59.99 gets F; and
`assign_grades` records exactly this grade for each student. -/
theorem grade_thresholds (s : ℚ) :
    (gradeOf s = "A" ↔ 90 ≤ s) ∧
    (gradeOf s = "B" ↔ 80 ≤ s ∧ s < 90) ∧
    (gradeOf s = "C" ↔ 70 ≤ s ∧ s < 80) ∧
    (gradeOf s = "D" ↔ 60 ≤ s ∧ s < 70) ∧
    (gradeOf s = "F" ↔ s < 60) ∧
    gradeOf 90 = "A" ∧ gradeOf 80 = "B" ∧ gradeOf 70 = "C" ∧
    gradeOf 60 = "D" ∧ gradeOf (5999 / 100) = "F" ∧
    ∀ name, assign_grades [(name, s)] = [(name, gradeOf s)] := by
  refine ⟨gradeOf_eq_A s, gradeOf_eq_B s, gradeOf_eq_C s, gradeOf_eq_D s,
    gradeOf_eq_F s, by norm_num [gradeOf], by norm_num [gradeOf],
    by norm_num [gradeOf], by norm_num [gradeOf], by norm_num [gradeOf],
    fun name => ?_⟩
  simp [assign_grades, dinsert]

theorem eq_snd_of_nodup_keys {α : Type} {l : List (String × α)}
    (hnd : (keys l).Nodup) {n : String} {s t : α}
    (hs : (n, s) ∈ l) (ht : (n, t) ∈ l) : s = t := by
  induction l with
  | nil => cases hs
  | cons p rest ih =>
    obtain ⟨k, v⟩ := p
    simp only [keys, List.map_cons, List.nodup_cons] at hnd
    obtain ⟨hk, hnd2⟩ := hnd
    rcases List.mem_cons.mp hs with h1 | h1 <;> rcases List.mem_cons.mp ht with h2 | h2
    · exact congrArg Prod.snd (h1.trans h2.symm)
    · injection h1 with e1 e2
      subst e1
      exact absurd (List.mem_map_of_mem Prod.fst h2) hk
    · injection h2 with e1 e2
      subst e1
      exact absurd (List.mem_map_of_mem Prod.fst h1) hk
    · exact ih hnd2 h1 h2

theorem mem_passedList {marks : List (String × ℚ)} {n : String} :
    n ∈ passedList marks ↔ ∃ s, (n, s) ∈ marks ∧ 40 ≤ s := by
  simp only [passedList, List.mem_map, List.mem_filter, decide_eq_true_eq]
  constructor
  · rintro ⟨⟨m, s⟩, ⟨hm, hs⟩, rfl⟩
    exact ⟨s, hm, hs⟩
  · rintro ⟨s, hm, hs⟩
    exact ⟨(n, s), ⟨hm, hs⟩, rfl⟩

theorem mem_failedList {marks : List (String × ℚ)} {n : String} :
    n ∈ failedList marks ↔ ∃ s, (n, s) ∈ marks ∧ s < 40 := by
  simp only [failedList, List.mem_map, List.mem_filter, decide_eq_true_eq]
  constructor
  · rintro ⟨⟨m, s⟩, ⟨hm, hs⟩, rfl⟩
    exact ⟨s, hm, hs⟩
  · rintro ⟨s, hm, hs⟩
    exact ⟨(n, s), ⟨hm, hs⟩, rfl⟩

/-- C3: the pass/fail filter splits the students into two disjoint,
exhaustive name lists — a student is in `passed` iff their score is ≥ 40
and in `failed` iff it is < 40 — and each list is a subsequence of the
names in insertion order. -/
theorem pass_fail_partition (marks : List (String × ℚ))
    (h : (keys marks).Nodup) :
    (∀ n, n ∈ passedList marks ↔ ∃ s, (n, s) ∈ marks ∧ 40 ≤ s) ∧
    (∀ n, n ∈ failedList marks ↔ ∃ s, (n, s) ∈ marks ∧ s < 40) ∧
    (∀ n, ¬(n ∈ passedList marks ∧ n ∈ failedList marks)) ∧
    (∀ n, n ∈ keys marks → n ∈ passedList marks ∨ n ∈ failedList marks) ∧
    (passedList marks).Sublist (keys marks) ∧
    (failedList marks).Sublist (keys marks) := by
  refine ⟨fun n => mem_passedList, fun n => mem_failedList, ?_, ?_, ?_, ?_⟩
  · rintro n ⟨hp, hf⟩
    obtain ⟨s, hms, hs⟩ := mem_passedList.mp hp
    obtain ⟨t, hmt, ht⟩ := mem_failedList.mp hf
    have hst := eq_snd_of_nodup_keys h hms hmt
    linarith
  · intro n hn
    obtain ⟨⟨m, s⟩, hm, rfl⟩ := List.mem_map.mp hn
    rcases le_or_lt 40 s with hle | hlt
    · exact Or.inl (mem_passedList.mpr ⟨s, hm, hle⟩)
    · exact Or.inr (mem_failedList.mpr ⟨s, hm, hlt⟩)
  · simp only [passedList, keys]
    exact (List.filter_sublist marks).map Prod.fst
  · simp only [failedList, keys]
    exact (List.filter_sublist marks).map Prod.fst

theorem pass_fail_partition_witness :
    (keys [("Alice", (95 : ℚ)), ("Bob", 35)]).Nodup ∧
    (passedList [("Alice", (95 : ℚ)), ("Bob", 35)]).Sublist
      (keys [("Alice", (95 : ℚ)), ("Bob", 35)]) :=
  ⟨by decide, (pass_fail_partition _ (by decide)).2.2.2.2.1⟩

theorem gradeOf_mem_five (s : ℚ) : gradeOf s ∈ ["A", "B", "C", "D", "F"] := by
  unfold gradeOf
  split_ifs <;> simp

theorem mem_dinsert {α : Type} {d : List (String × α)} {k : String} {v : α}
    {p : String × α} (hp : p ∈ dinsert d k v) : p ∈ d ∨ p = (k, v) := by
  unfold dinsert at hp
  split at hp
  · obtain ⟨q, hq, hfq⟩ := List.mem_map.mp hp
    by_cases h : q.1 = k
    · right
      rw [← hfq]
      simp [h]
    · left
      rw [← hfq]
      simpa [h] using hq
  · rcases List.mem_append.mp hp with h | h
    · exact Or.inl h
    · right
      simpa using h

theorem assign_grades_snd_mem (marks : List (String × ℚ)) :
    ∀ p ∈ assign_grades marks, p.2 ∈ ["A", "B", "C", "D", "F"] := by
  suffices h : ∀ (l : List (String × ℚ)) (acc : List (String × String)),
      (∀ p ∈ acc, p.2 ∈ ["A", "B", "C", "D", "F"]) →
      ∀ p ∈ l.foldl (fun g p => dinsert g p.1 (gradeOf p.2)) acc,
        p.2 ∈ ["A", "B", "C", "D", "F"] by
    exact h marks [] (by simp)
  intro l
  induction l with
  | nil =>
    intro acc hacc p hp
    exact hacc p hp
  | cons q rest ih =>
    intro acc hacc p hp
    simp only [List.foldl_cons] at hp
    refine ih _ ?_ p hp
    intro r hr
    rcases mem_dinsert hr with h | h
    · exact hacc r h
    · rw [h]
      exact gradeOf_mem_five q.2

theorem bumpCount_ok {d : List (String × Nat)} {g : String} (hg : g ∈ keys d) :
    ∃ d2, bumpCount d g = some d2 ∧ keys d2 = keys d ∧
      (d2.map Prod.snd).sum = (d.map Prod.snd).sum + 1 := by
  induction d with
  | nil => exact absurd hg (by simp [keys])
  | cons p rest ih =>
    obtain ⟨k, c⟩ := p
    by_cases h : k = g
    · exact ⟨(k, c + 1) :: rest, by simp [bumpCount, h], by simp [keys],
        by simp; omega⟩
    · have hg2 : g ∈ keys rest := by
        simp only [keys, List.map_cons, List.mem_cons] at hg
        rcases hg with h1 | h1
        · exact absurd h1.symm h
        · exact h1
      obtain ⟨d2, hd2, hkeys, hsum⟩ := ih hg2
      refine ⟨(k, c) :: d2, ?_, ?_, ?_⟩
      · simp [bumpCount, h, hd2]
      · simp [keys] at hkeys ⊢
        exact hkeys
      · simp only [List.map_cons, List.sum_cons, hsum]
        omega

theorem distLoop_ok : ∀ (gs : List String) (d : List (String × Nat)),
    (∀ g ∈ gs, g ∈ keys d) →
    ∃ d2, distLoop gs d = some d2 ∧ keys d2 = keys d ∧
      (d2.map Prod.snd).sum = (d.map Prod.snd).sum + gs.length := by
  intro gs
  induction gs with
  | nil =>
    intro d h
    exact ⟨d, rfl, rfl, by simp⟩
  | cons g rest ih =>
    intro d h
    obtain ⟨d1, hb, hk1, hs1⟩ := bumpCount_ok (h g (by simp))
    obtain ⟨d2, hd, hk2, hs2⟩ :=
      ih d1 (fun x hx => hk1.symm ▸ h x (List.mem_cons_of_mem _ hx))
    refine ⟨d2, ?_, by rw [hk2, hk1], by rw [hs2, hs1]; simp; omega⟩
    simp [distLoop, hb, hd]

/-- C4: on any grade mapping produced by `assign_grades`, the distribution
tally succeeds (no `KeyError`), its categories are exactly A, B, C, D, F in
that order (zero counts included), and the five counts sum to the number
of students in the grade mapping. -/
theorem grade_distribution_complete (marks : List (String × ℚ)) :
    ∃ d, show_grade_distribution (assign_grades marks) = some d ∧
      keys d = ["A", "B", "C", "D", "F"] ∧
      (d.map Prod.snd).sum = (assign_grades marks).length := by
  unfold show_grade_distribution
  have hmem : ∀ g ∈ (assign_grades marks).map Prod.snd,
      g ∈ keys ([("A", 0), ("B", 0), ("C", 0), ("D", 0), ("F", 0)] :
        List (String × Nat)) := by
    intro g hg
    obtain ⟨p, hp, rfl⟩ := List.mem_map.mp hg
    simpa [keys] using assign_grades_snd_mem marks p hp
  obtain ⟨d, hd, hk, hs⟩ := distLoop_ok _ _ hmem
  refine ⟨d, hd, by simpa [keys] using hk, ?_⟩
  rw [hs]
  simp

theorem dinsert_fresh {α : Type} {d : List (String × α)} {k : String} (v : α)
    (hk : k ∉ keys d) : dinsert d k v = d ++ [(k, v)] := by
  have hc : ¬ (d.any (fun p => p.1 = k) = true) := by
    intro hany
    obtain ⟨p, hp, he⟩ := List.any_eq_true.mp hany
    exact hk (List.mem_map.mpr ⟨p, hp, of_decide_eq_true he⟩)
  simp [dinsert, hc]

theorem foldl_dinsert_nodup {α β : Type} (f : String × α → β) :
    ∀ (l : List (String × α)) (acc : List (String × β)),
      (keys l).Nodup → (∀ k ∈ keys l, k ∉ keys acc) →
      l.foldl (fun d p => dinsert d p.1 (f p)) acc
        = acc ++ l.map (fun p => (p.1, f p)) := by
  intro l
  induction l with
  | nil =>
    intro acc _ _
    simp
  | cons p rest ih =>
    intro acc hnd hdisj
    simp only [List.foldl_cons, List.map_cons]
    have hp : p.1 ∉ keys acc := hdisj p.1 (by simp [keys])
    rw [dinsert_fresh (f p) hp]
    simp only [keys, List.map_cons, List.nodup_cons] at hnd
    have hstep : ∀ k ∈ keys rest, k ∉ keys (acc ++ [(p.1, f p)]) := by
      intro k hk
      simp only [keys, List.map_append, List.map_cons, List.map_nil,
        List.mem_append, List.mem_singleton]
      rintro (hmem | rfl)
      · exact hdisj k (List.mem_cons_of_mem p.1 hk) hmem
      · exact hnd.1 hk
    rw [ih (acc ++ [(p.1, f p)]) hnd.2 hstep]
    simp

theorem assign_grades_eq_map {marks : List (String × ℚ)}
    (h : (keys marks).Nodup) :
    assign_grades marks = marks.map (fun p => (p.1, gradeOf p.2)) := by
  unfold assign_grades
  simpa using
    foldl_dinsert_nodup (fun p => gradeOf p.2) marks [] h (by simp [keys])

/-- C8: the grade mapping produced by `assign_grades` has exactly the same
key set, in the same order, as the score mapping it was derived from. -/
theorem grade_keys_eq_score_keys (marks : List (String × ℚ))
    (h : (keys marks).Nodup) :
    keys (assign_grades marks) = keys marks := by
  rw [assign_grades_eq_map h]
  simp [keys]

theorem grade_keys_eq_score_keys_witness :
    (keys [("Alice", (95 : ℚ)), ("Bob", 35)]).Nodup ∧
    keys (assign_grades [("Alice", (95 : ℚ)), ("Bob", 35)])
      = keys [("Alice", (95 : ℚ)), ("Bob", 35)] :=
  ⟨by decide, grade_keys_eq_score_keys _ (by decide)⟩

theorem goodRun_all_valid : ∀ l : List (String × Tok),
    (∀ p ∈ l, (floatOf p.2).isSome = true) → goodRun l = l := by
  intro l
  induction l with
  | nil => intro _; rfl
  | cons p rest ih =>
    intro h
    simp only [goodRun, List.takeWhile_cons] at *
    rw [if_pos (h p (by simp))]
    rw [ih (fun q hq => h q (List.mem_cons_of_mem p hq))]

theorem get_csv_data_of_numeric (rows : List (String × ℚ))
    (h : (keys rows).Nodup) :
    get_csv_data (.ok (rows.map (fun p => (p.1, Tok.num p.2)))) = rows := by
  show entryLoop (rows.map (fun p => (p.1, Tok.num p.2))) [] = rows
  rw [entryLoop_eq_goodRun]
  rw [goodRun_all_valid _ (by
    intro p hp
    obtain ⟨q, hq, rfl⟩ := List.mem_map.mp hp
    rfl)]
  have hkeys : keys (rows.map (fun p => (p.1, Tok.num p.2))) = keys rows := by
    simp [keys]
  rw [foldl_dinsert_nodup _ _ [] (hkeys ▸ h) (by simp [keys]),
    List.nil_append, List.map_map]
  have hid : List.map
      ((fun p => (p.1, (floatOf p.2).getD 0)) ∘
        fun p : String × ℚ => (p.1, Tok.num p.2)) rows = List.map id rows :=
    List.map_congr_left (fun a _ => rfl)
  rw [hid, List.map_id]

theorem dlookup_map_self {α β : Type} (f : String × α → β) :
    ∀ (l : List (String × α)), (keys l).Nodup →
      ∀ (n : String) (s : α), (n, s) ∈ l →
        dlookup (l.map (fun p => (p.1, f p))) n = some (f (n, s)) := by
  intro l
  induction l with
  | nil =>
    intro _ n s hm
    cases hm
  | cons p rest ih =>
    intro h n s hm
    simp only [keys, List.map_cons, List.nodup_cons] at h
    rcases List.mem_cons.mp hm with h1 | h1
    · rw [← h1]
      simp only [List.map_cons, dlookup]
      rw [List.find?_cons_of_pos _ (by simp)]
      rfl
    · have hne : ¬ (p.1 = n) :=
        fun he => h.1 (he ▸ List.mem_map_of_mem Prod.fst h1)
      simp only [List.map_cons, dlookup]
      rw [List.find?_cons_of_neg _ (by simpa using hne)]
      exact ih h.2 n s h1

theorem exportRows_ok {grades : List (String × String)} :
    ∀ marks : List (String × ℚ),
      (∀ p ∈ marks, dlookup grades p.1 = some (gradeOf p.2)) →
      exportRows marks grades
        = some (marks.map (fun p => (p.1, p.2, gradeOf p.2))) := by
  intro marks
  induction marks with
  | nil => intro _; rfl
  | cons p rest ih =>
    intro h
    obtain ⟨name, score⟩ := p
    simp only [exportRows]
    rw [h (name, score) (by simp)]
    rw [ih (fun q hq => h q (List.mem_cons_of_mem _ hq))]
    rfl

/-- C7: exporting a score mapping with its grades yields a file with header
`Name,Marks,Grade` and one row per student in insertion order, and feeding
that file back through the file-mode data source reconstructs exactly the
original name → score mapping. -/
theorem export_reimport_roundtrip (marks : List (String × ℚ))
    (h : (keys marks).Nodup) :
    ∃ f, export_to_csv marks (assign_grades marks) = some f ∧
      f.header = ["Name", "Marks", "Grade"] ∧
      f.rows = marks.map (fun p => (p.1, p.2, gradeOf p.2)) ∧
      reimport f = marks := by
  have hrows : exportRows marks (assign_grades marks)
      = some (marks.map (fun p => (p.1, p.2, gradeOf p.2))) := by
    apply exportRows_ok
    intro p hp
    rw [assign_grades_eq_map h]
    have := dlookup_map_self (fun q => gradeOf q.2) marks h p.1 p.2
      (by simpa using hp)
    simpa using this
  refine ⟨⟨["Name", "Marks", "Grade"],
    marks.map (fun p => (p.1, p.2, gradeOf p.2))⟩, ?_, rfl, rfl, ?_⟩
  · simp [export_to_csv, hrows]
  · unfold reimport
    have hcomp : (marks.map (fun p => (p.1, p.2, gradeOf p.2))).map
        (fun r => (r.1, Tok.num r.2.1)) = marks.map (fun p => (p.1, Tok.num p.2)) := by
      simp
    simp only [hcomp]
    exact get_csv_data_of_numeric marks h

theorem export_reimport_roundtrip_witness :
    (keys [("Alice", (95 : ℚ)), ("Bob", 55)]).Nodup ∧
    ∃ f, export_to_csv [("Alice", (95 : ℚ)), ("Bob", 55)]
        (assign_grades [("Alice", (95 : ℚ)), ("Bob", 55)]) = some f ∧
      f.header = ["Name", "Marks", "Grade"] ∧
      f.rows = [("Alice", (95 : ℚ)), ("Bob", 55)].map
        (fun p => (p.1, p.2, gradeOf p.2)) ∧
      reimport f = [("Alice", (95 : ℚ)), ("Bob", 55)] :=
  ⟨by decide, export_reimport_roundtrip _ (by decide)⟩

theorem le_foldl_max (l : List ℚ) : ∀ a : ℚ, a ≤ l.foldl max a := by
  induction l with
  | nil => intro a; exact le_refl a
  | cons x t ih =>
    intro a
    exact le_trans (le_max_left a x) (ih (max a x))

theorem mem_le_foldl_max : ∀ (l : List ℚ) (x : ℚ), x ∈ l → ∀ a, x ≤ l.foldl max a := by
  intro l
  induction l with
  | nil =>
    intro x hx
    cases hx
  | cons y t ih =>
    intro x hx a
    rcases List.mem_cons.mp hx with h | h
    · subst h
      exact le_trans (le_max_right a x) (le_foldl_max t _)
    · exact ih x h _

theorem foldl_min_le (l : List ℚ) : ∀ a : ℚ, l.foldl min a ≤ a := by
  induction l with
  | nil => intro a; exact le_refl a
  | cons x t ih =>
    intro a
    exact le_trans (ih (min a x)) (min_le_left a x)

theorem foldl_min_le_mem : ∀ (l : List ℚ) (x : ℚ), x ∈ l → ∀ a, l.foldl min a ≤ x := by
  intro l
  induction l with
  | nil =>
    intro x hx
    cases hx
  | cons y t ih =>
    intro x hx a
    rcases List.mem_cons.mp hx with h | h
    · subst h
      exact le_trans (foldl_min_le t _) (min_le_right a x)
    · exact ih x h _

/-- C6: for every non-empty score mapping, the average computed by
`calculate_average` lies between `find_min_score` and `find_max_score`,
inclusive. -/
theorem average_between_min_and_max (marks : List (String × ℚ))
    (h : marks ≠ []) :
    find_min_score marks ≤ calculate_average marks ∧
    calculate_average marks ≤ find_max_score marks := by
  obtain ⟨p, rest, rfl⟩ := List.exists_cons_of_ne_nil h
  have hne : ((p :: rest).isEmpty) = false := rfl
  have hlen : (0 : ℚ) < ((p :: rest).length : ℚ) := by
    have : 0 < (p :: rest).length := Nat.succ_pos _
    exact_mod_cast this
  have hvals : (p :: rest).map Prod.snd = p.2 :: rest.map Prod.snd := rfl
  have hmax : ∀ x ∈ (p :: rest).map Prod.snd, x ≤ find_max_score (p :: rest) := by
    intro x hx
    rw [hvals] at hx
    rcases List.mem_cons.mp hx with h1 | h1
    · subst h1
      exact le_foldl_max _ _
    · exact mem_le_foldl_max _ x h1 _
  have hmin : ∀ x ∈ (p :: rest).map Prod.snd, find_min_score (p :: rest) ≤ x := by
    intro x hx
    rw [hvals] at hx
    rcases List.mem_cons.mp hx with h1 | h1
    · subst h1
      exact foldl_min_le _ _
    · exact foldl_min_le_mem _ x h1 _
  have hlenv : ((p :: rest).map Prod.snd).length = (p :: rest).length :=
    List.length_map _ _
  constructor
  · have hsum : ((p :: rest).map Prod.snd).length • find_min_score (p :: rest)
        ≤ ((p :: rest).map Prod.snd).sum :=
      List.card_nsmul_le_sum _ _ hmin
    rw [hlenv, nsmul_eq_mul] at hsum
    unfold calculate_average
    rw [if_neg (by simp)]
    rw [le_div_iff hlen]
    linarith [hsum]
  · have hsum : ((p :: rest).map Prod.snd).sum
        ≤ ((p :: rest).map Prod.snd).length • find_max_score (p :: rest) :=
      List.sum_le_card_nsmul _ _ hmax
    rw [hlenv, nsmul_eq_mul] at hsum
    unfold calculate_average
    rw [if_neg (by simp)]
    rw [div_le_iff hlen]
    linarith [hsum]

theorem average_between_min_and_max_witness :
    ([("Alice", (95 : ℚ)), ("Bob", 35)] : List (String × ℚ)) ≠ [] ∧
    find_min_score [("Alice", (95 : ℚ)), ("Bob", 35)]
        ≤ calculate_average [("Alice", (95 : ℚ)), ("Bob", 35)] ∧
      calculate_average [("Alice", (95 : ℚ)), ("Bob", 35)]
        ≤ find_max_score [("Alice", (95 : ℚ)), ("Bob", 35)] :=
  ⟨by decide, average_between_min_and_max _ (by decide)⟩

theorem dlookup_cons_pos {α : Type} {p : String × α} {k : String}
    (h : p.1 = k) (d : List (String × α)) :
    dlookup (p :: d) k = some p.2 := by
  simp only [dlookup]
  rw [List.find?_cons_of_pos _ (by simpa using h)]
  rfl

theorem dlookup_cons_neg {α : Type} {p : String × α} {k : String}
    (h : ¬ p.1 = k) (d : List (String × α)) :
    dlookup (p :: d) k = dlookup d k := by
  simp only [dlookup]
  rw [List.find?_cons_of_neg _ (by simpa using h)]

theorem dlookup_eq_none {α : Type} {k : String} :
    ∀ {d : List (String × α)}, k ∉ keys d → dlookup d k = none := by
  intro d
  induction d with
  | nil =>
    intro _
    rfl
  | cons p rest ih =>
    intro h
    simp only [keys, List.map_cons, List.mem_cons, not_or] at h
    rw [dlookup_cons_neg (fun he => h.1 he.symm)]
    exact ih (fun hm => h.2 (by simpa [keys] using hm))

theorem dlookup_update_self {α : Type} {k : String} (v : α) :
    ∀ d : List (String × α), k ∈ keys d →
      dlookup (d.map (fun p => if p.1 = k then (k, v) else p)) k = some v := by
  intro d
  induction d with
  | nil =>
    intro h
    exact absurd h (by simp [keys])
  | cons p rest ih =>
    intro h
    by_cases hp : p.1 = k
    · rw [List.map_cons, if_pos hp]
      exact dlookup_cons_pos rfl _
    · have h2 : k ∈ keys rest := by
        simp only [keys, List.map_cons, List.mem_cons] at h
        rcases h with h1 | h1
        · exact absurd h1.symm hp
        · exact h1
      rw [List.map_cons, if_neg hp, dlookup_cons_neg hp]
      exact ih h2

theorem dlookup_update_ne {α : Type} {k k' : String} (hne : k ≠ k') (v : α) :
    ∀ d : List (String × α),
      dlookup (d.map (fun p => if p.1 = k then (k, v) else p)) k'
        = dlookup d k' := by
  intro d
  induction d with
  | nil => rfl
  | cons p rest ih =>
    by_cases hp : p.1 = k
    · rw [List.map_cons, if_pos hp,
        dlookup_cons_neg (fun he => hne (by simpa using he)),
        dlookup_cons_neg (fun he => hne (hp ▸ he)), ih]
    · by_cases hq : p.1 = k'
      · rw [List.map_cons, if_neg hp, dlookup_cons_pos hq, dlookup_cons_pos hq]
      · rw [List.map_cons, if_neg hp, dlookup_cons_neg hq, dlookup_cons_neg hq, ih]

theorem dlookup_append_single {α : Type} (k k' : String) (v : α) :
    ∀ d : List (String × α),
      dlookup (d ++ [(k, v)]) k' =
        match dlookup d k' with
        | some w => some w
        | none => if k = k' then some v else none := by
  intro d
  induction d with
  | nil =>
    by_cases h : k = k'
    · rw [List.nil_append, dlookup_cons_pos h]
      simp [dlookup, h]
    · rw [List.nil_append, dlookup_cons_neg h]
      simp [dlookup, h]
  | cons p rest ih =>
    rw [List.cons_append]
    by_cases hp : p.1 = k'
    · rw [dlookup_cons_pos hp, dlookup_cons_pos hp]
    · rw [dlookup_cons_neg hp (rest ++ [(k, v)]), dlookup_cons_neg hp rest, ih]

theorem dlookup_dinsert {α : Type} (d : List (String × α)) (k k' : String)
    (v : α) :
    dlookup (dinsert d k v) k' = if k = k' then some v else dlookup d k' := by
  by_cases hany : d.any (fun p => p.1 = k) = true
  · have hk : k ∈ keys d := by
      obtain ⟨p, hp, he⟩ := List.any_eq_true.mp hany
      exact List.mem_map.mpr ⟨p, hp, of_decide_eq_true he⟩
    rw [show dinsert d k v = d.map (fun p => if p.1 = k then (k, v) else p) by
      simp [dinsert, hany]]
    by_cases h : k = k'
    · subst h
      rw [if_pos rfl]
      exact dlookup_update_self v d hk
    · rw [if_neg h]
      exact dlookup_update_ne h v d
  · have hk : k ∉ keys d := by
      intro hm
      obtain ⟨p, hp, he⟩ := List.mem_map.mp hm
      exact hany (List.any_eq_true.mpr ⟨p, hp, decide_eq_true he⟩)
    rw [dinsert_fresh v hk, dlookup_append_single]
    by_cases h : k = k'
    · subst h
      rw [dlookup_eq_none hk]
    · cases hd : dlookup d k' <;> simp [hd, h]

theorem getLast?_cons_match {α : Type} (a : α) (l : List α) :
    (a :: l).getLast? =
      match l.getLast? with
      | some x => some x
      | none => some a := by
  induction l generalizing a with
  | nil => rfl
  | cons b t ih =>
    rw [List.getLast?_cons_cons, ih b]
    cases htl : t.getLast? <;> simp

theorem dlookup_foldl_dinsert {α β : Type} (f : String × α → β) :
    ∀ (l : List (String × α)) (acc : List (String × β)) (k : String),
      dlookup (l.foldl (fun d p => dinsert d p.1 (f p)) acc) k
        = match (l.filter (fun p => p.1 = k)).getLast? with
          | some p => some (f p)
          | none => dlookup acc k := by
  intro l
  induction l with
  | nil =>
    intro acc k
    rfl
  | cons p rest ih =>
    intro acc k
    simp only [List.foldl_cons]
    rw [ih]
    by_cases hp : p.1 = k
    · rw [List.filter_cons_of_pos (by simpa using hp), getLast?_cons_match]
      cases hlast : (rest.filter (fun q : String × α => q.1 = k)).getLast? with
      | some q => simp [hlast]
      | none => simp [hlast, dlookup_dinsert, hp]
    · rw [List.filter_cons_of_neg (by simpa using hp)]
      cases hlast : (rest.filter (fun q : String × α => q.1 = k)).getLast? with
      | some q => simp [hlast]
      | none => simp [hlast, dlookup_dinsert, hp]

theorem keys_dinsert_nodup {α : Type} {d : List (String × α)}
    (h : (keys d).Nodup) (k : String) (v : α) :
    (keys (dinsert d k v)).Nodup := by
  by_cases hany : d.any (fun p => p.1 = k) = true
  · rw [show dinsert d k v = d.map (fun p => if p.1 = k then (k, v) else p) by
      simp [dinsert, hany]]
    have hkeys : keys (d.map (fun p => if p.1 = k then (k, v) else p))
        = keys d := by
      simp only [keys, List.map_map]
      exact List.map_congr_left (fun p _ => by by_cases hp : p.1 = k <;> simp [hp])
    rw [hkeys]
    exact h
  · have hk : k ∉ keys d := by
      intro hm
      obtain ⟨p, hp, he⟩ := List.mem_map.mp hm
      exact hany (List.any_eq_true.mpr ⟨p, hp, decide_eq_true he⟩)
    rw [dinsert_fresh v hk]
    simp only [keys, List.map_append, List.map_cons, List.map_nil]
    rw [List.nodup_append]
    exact ⟨h, List.nodup_singleton k, fun a ha hb => by
      simp only [List.mem_singleton] at hb
      exact hk (hb ▸ ha)⟩

theorem entryLoop_keys_nodup :
    ∀ (l : List (String × Tok)) (acc : List (String × ℚ)),
      (keys acc).Nodup → (keys (entryLoop l acc)).Nodup := by
  intro l
  induction l with
  | nil =>
    intro acc h
    exact h
  | cons p rest ih =>
    intro acc h
    obtain ⟨name, tok⟩ := p
    cases tok with
    | num q => exact ih _ (keys_dinsert_nodup h name q)
    | invalid => exact h

/-- C10: a data-entry batch with repeated student names keeps only the most
recently entered score for each name: the mappings built by manual entry
and file import always have duplicate-free name keys, a full valid manual
batch and a file batch of the same rows build the same mapping, and looking
up any name yields the score of its last occurrence in the batch. -/
theorem duplicate_entries_last_wins (rows : List (String × ℚ)) (c : Tok)
    (entries : List (String × Tok)) :
    (keys (get_manual_data c entries)).Nodup ∧
    (keys (get_csv_data (.ok (rows.map (fun p => (p.1, Tok.num p.2)))))).Nodup ∧
    get_manual_data (Tok.num rows.length)
        (rows.map (fun p => (p.1, Tok.num p.2)))
      = get_csv_data (.ok (rows.map (fun p => (p.1, Tok.num p.2)))) ∧
    ∀ name,
      dlookup (get_csv_data (.ok (rows.map (fun p => (p.1, Tok.num p.2))))) name
        = ((rows.filter (fun p => p.1 = name)).getLast?).map Prod.snd := by
  refine ⟨?_, ?_, ?_, ?_⟩
  · unfold get_manual_data
    cases intOf c with
    | some n => exact entryLoop_keys_nodup _ [] List.nodup_nil
    | none => exact List.nodup_nil
  · exact entryLoop_keys_nodup _ [] List.nodup_nil
  · show entryLoop ((rows.map (fun p => (p.1, Tok.num p.2))).take
        (Int.toNat (rows.length : ℤ))) [] = _
    rw [show Int.toNat (rows.length : ℤ) = rows.length from rfl]
    rw [List.take_of_length_le (le_of_eq (List.length_map _ _))]
    rfl
  · intro name
    show dlookup (entryLoop (rows.map (fun p => (p.1, Tok.num p.2))) []) name = _
    rw [entryLoop_eq_goodRun, goodRun_all_valid _ (by
      intro p hp
      obtain ⟨q, hq, rfl⟩ := List.mem_map.mp hp
      rfl)]
    rw [dlookup_foldl_dinsert]
    rw [List.filter_map]
    rw [List.getLast?_map]
    have hfc : rows.filter
        ((fun q : String × Tok => decide (q.1 = name)) ∘
          fun p : String × ℚ => (p.1, Tok.num p.2))
        = rows.filter (fun p => p.1 = name) :=
      List.filter_congr (fun p _ => rfl)
    rw [hfc]
    cases hlast : (rows.filter (fun p : String × ℚ => p.1 = name)).getLast? with
    | some q => simp [hlast, floatOf]
    | none => simp [hlast, dlookup]

theorem analyze_of_ite {marks0 marks : List (String × ℚ)}
    (h : (if marks0.isEmpty then State.menuPrompt else State.analyze marks0)
      = State.analyze marks) : marks ≠ [] := by
  by_cases he : marks0.isEmpty
  · rw [if_pos he] at h
    exact State.noConfusion h
  · rw [if_neg he] at h
    injection h with hm
    subst hm
    intro hnil
    exact he (by simp [hnil])

theorem step_analyze_nonempty (s : State) (i : Input)
    (marks : List (String × ℚ)) (h : step s i = .analyze marks) :
    marks ≠ [] := by
  cases s with
  | menuPrompt =>
    cases i with
    | line c =>
      simp only [step] at h
      split_ifs at h <;> exact State.noConfusion h
    | manualData c e => exact State.noConfusion h
    | csvData r => exact State.noConfusion h
  | manualEntry =>
    cases i with
    | manualData c e => exact analyze_of_ite h
    | line c => exact State.noConfusion h
    | csvData r => exact State.noConfusion h
  | fileImport =>
    cases i with
    | csvData r => exact analyze_of_ite h
    | line c => exact State.noConfusion h
    | manualData c e => exact State.noConfusion h
  | analyze m => cases i <;> exact State.noConfusion h
  | exportPrompt m g => cases i <;> exact State.noConfusion h
  | repeatPrompt =>
    cases i with
    | line c =>
      simp only [step] at h
      split_ifs at h <;> exact State.noConfusion h
    | manualData c e => exact State.noConfusion h
    | csvData r => exact State.noConfusion h
  | terminated => cases i <;> exact State.noConfusion h

theorem trace_analyze_invariant :
    ∀ (inputs : List Input) (s : State),
      (∀ m, s = State.analyze m → m ≠ []) →
      ∀ marks, State.analyze marks ∈ trace s inputs → marks ≠ [] := by
  intro inputs
  induction inputs with
  | nil =>
    intro s hs marks hm
    simp only [trace, List.mem_singleton] at hm
    exact hs marks hm.symm
  | cons i rest ih =>
    intro s hs marks hm
    simp only [trace, List.mem_cons] at hm
    rcases hm with h | h
    · exact hs marks h.symm
    · exact ih (step s i) (fun m hm2 => step_analyze_nonempty s i m hm2) marks h

/-- C9: the session controller never enters the Analyze state with an empty
score set — when manual entry or file import yields an empty mapping the
loop returns to the menu prompt, and along every run started at the menu
prompt, every Analyze state visited carries a non-empty mapping. -/
theorem analyze_never_entered_empty :
    (∀ (c : Tok) (entries : List (String × Tok)),
      get_manual_data c entries = [] →
      step .manualEntry (.manualData c entries) = .menuPrompt) ∧
    (∀ r : CsvReadResult, get_csv_data r = [] →
      step .fileImport (.csvData r) = .menuPrompt) ∧
    ∀ (inputs : List Input) (marks : List (String × ℚ)),
      State.analyze marks ∈ trace .menuPrompt inputs → marks ≠ [] := by
  refine ⟨?_, ?_, ?_⟩
  · intro c entries h
    show (if (get_manual_data c entries).isEmpty then State.menuPrompt
      else State.analyze (get_manual_data c entries)) = State.menuPrompt
    rw [h]
    rfl
  · intro r h
    show (if (get_csv_data r).isEmpty then State.menuPrompt
      else State.analyze (get_csv_data r)) = State.menuPrompt
    rw [h]
    rfl
  · intro inputs marks hm
    exact trace_analyze_invariant inputs .menuPrompt
      (fun m hm2 => State.noConfusion hm2) marks hm

theorem analyze_never_entered_empty_witness :
    State.analyze [("Alice", (95 : ℚ))] ∈
      trace State.menuPrompt
        [Input.line "1", Input.manualData (Tok.num 1) [("Alice", Tok.num 95)]] ∧
    ([("Alice", (95 : ℚ))] : List (String × ℚ)) ≠ [] :=
  ⟨by decide,
    analyze_never_entered_empty.2.2
      [Input.line "1", Input.manualData (Tok.num 1) [("Alice", Tok.num 95)]]
      [("Alice", (95 : ℚ))] (by decide)⟩

end Gradebook
